import Mathlib

/-!
Shallow embedding of the scoutfs kernel module core: the key-vector
("kvec") engine of `src/kvec.c` and the superblock store / statistics
reporter of the super source file.  Machine integers are modelled as `ℕ`
with explicit `% 2^64` where 64-bit overflow matters; byte buffers are
`List ℕ` of values below 256.
-/

set_option autoImplicit false

namespace Scoutfs

/-! ## Key vector model

A `struct kvec` array is modelled by the list of its segments, each
segment being the byte contents of its buffer (`iov_len` is the list
length, `iov_base` the buffer itself).  A NULL/empty element is `[]`.
-/

abbrev Kvec := List (List ℕ)

/-- `scoutfs_kvec_length` (kvec.h, used by `iter_init`): total logical
length, the sum of the segment lengths. -/
def scoutfs_kvec_length (kv : Kvec) : ℕ := (kv.map List.length).sum

/-- A kvec is byte-wellformed when every byte of every segment is < 256. -/
def KvecWF (kv : Kvec) : Prop := ∀ s ∈ kv, ∀ b ∈ s, b < 256

/-! ### The `struct iter` cursor

The C iterator keeps `(kvec, i, off)` with the invariant maintained by
`iter_advance`'s while loop: advance past exhausted segments
(`off >= iov_len`) until either `i` reaches the end of the array or
`off` falls inside the current segment.  We model the cursor as the pair
(remaining segments, offset into the first of them); the while loop is
`iter_norm`. -/

def iter_norm : List (List ℕ) → ℕ → List (List ℕ) × ℕ
  | [], off => ([], off)
  | s :: rest, off =>
    if s.length ≤ off then iter_norm rest (off - s.length) else (s :: rest, off)

/-- `iter_init`: start at the first segment, offset 0, then normalize
(the C code calls `iter_advance(iter, 0)`). -/
def iter_init (kv : Kvec) : List (List ℕ) × ℕ := iter_norm kv 0

/-- `iter_advance(iter, len)`: add `len` to the offset, then run the
normalization while loop. -/
def iter_adv (st : List (List ℕ) × ℕ) (len : ℕ) : List (List ℕ) × ℕ :=
  iter_norm st.1 (st.2 + len)

/-- `iter_contig`: count of contiguous bytes available at the cursor. -/
def iter_contig : List (List ℕ) × ℕ → ℕ
  | ([], _) => 0
  | (s :: _, off) => s.length - off

/-- The bytes reachable through `iter_ptr`: the current segment from the
current offset on. -/
def iter_bytes : List (List ℕ) × ℕ → List ℕ
  | ([], _) => []
  | (s :: _, off) => s.drop off

/-- Total bytes left at a cursor (the C `count` field, which the source
loop maintains but never branches on; we use it as termination measure). -/
def iterLen (st : List (List ℕ) × ℕ) : ℕ := scoutfs_kvec_length st.1 - st.2

/-- Kernel `memcmp(p, q, n)`: difference of the first differing byte
pair among the first `n` bytes, else 0.  (Out-of-range reads cannot
happen at call sites: `n` is at most the contiguous run of each side.) -/
def memcmp_bytes : ℕ → List ℕ → List ℕ → Int
  | 0, _, _ => 0
  | _ + 1, [], _ => 0
  | _ + 1, _ :: _, [] => 0
  | n + 1, x :: xs, y :: ys =>
    if (x : Int) - (y : Int) ≠ 0 then (x : Int) - (y : Int) else memcmp_bytes n xs ys

theorem iterLen_iter_norm (segs : List (List ℕ)) (off : ℕ) :
    iterLen (iter_norm segs off) = scoutfs_kvec_length segs - off := by
  induction segs generalizing off with
  | nil => simp [iter_norm, iterLen]
  | cons s rest ih =>
    by_cases h : s.length ≤ off
    · simp only [iter_norm, if_pos h]
      rw [ih]
      simp only [scoutfs_kvec_length, List.map_cons, List.sum_cons]
      omega
    · simp [iter_norm, if_neg h, iterLen]

theorem iter_contig_le_iterLen (st : List (List ℕ) × ℕ) :
    iter_contig st ≤ iterLen st := by
  obtain ⟨segs, o⟩ := st
  cases segs with
  | nil => simp [iter_contig]
  | cons s r =>
    simp only [iter_contig, iterLen, scoutfs_kvec_length, List.map_cons,
      List.sum_cons]
    omega

theorem iter_off_le_of_contig_ne (st : List (List ℕ) × ℕ)
    (h : iter_contig st ≠ 0) : st.2 ≤ scoutfs_kvec_length st.1 := by
  obtain ⟨segs, o⟩ := st
  cases segs with
  | nil => simp [iter_contig] at h
  | cons s r =>
    simp only [iter_contig] at h
    simp only [scoutfs_kvec_length, List.map_cons, List.sum_cons]
    omega

/-- The loop of `scoutfs_kvec_memcmp`: while `len = min(contig a, contig b)`
is nonzero, memcmp `len` bytes and return the raw result if nonzero, else
advance both cursors; on exhaustion the side with bytes remaining is the
larger. -/
def memcmp_loop (a b : List (List ℕ) × ℕ) : Int :=
  if h : min (iter_contig a) (iter_contig b) = 0 then
    if iter_contig a ≠ 0 then 1 else if iter_contig b ≠ 0 then -1 else 0
  else if memcmp_bytes (min (iter_contig a) (iter_contig b))
      (iter_bytes a) (iter_bytes b) ≠ 0 then
    memcmp_bytes (min (iter_contig a) (iter_contig b)) (iter_bytes a) (iter_bytes b)
  else
    memcmp_loop (iter_adv a (min (iter_contig a) (iter_contig b)))
      (iter_adv b (min (iter_contig a) (iter_contig b)))
termination_by iterLen a
decreasing_by
  · simp only [iter_adv]
    rw [iterLen_iter_norm]
    have hca := iter_contig_le_iterLen a
    have hlen : min (iter_contig a) (iter_contig b) ≠ 0 := h
    have hoff : a.2 ≤ scoutfs_kvec_length a.1 := by
      refine iter_off_le_of_contig_ne a ?_
      omega
    have hle : iterLen a = scoutfs_kvec_length a.1 - a.2 := rfl
    omega

/-- `scoutfs_kvec_memcmp` (kvec.c:84): memcmp over the min of the two
total lengths; equal shorter lengths make the shorter vector smaller. -/
def scoutfs_kvec_memcmp (a b : Kvec) : Int :=
  memcmp_loop (iter_init a) (iter_init b)

/-- `scoutfs_kvec_cmp_overlap` (kvec.c:111). -/
def scoutfs_kvec_cmp_overlap (a b c d : Kvec) : Int :=
  if scoutfs_kvec_memcmp b c < 0 then -1
  else if scoutfs_kvec_memcmp a d > 0 then 1 else 0

/-! ### Specification function: byte-by-byte comparison of flat byte lists

`listCmp` is the mathematical comparison of two byte sequences: the
difference of the first differing byte pair, with a strict prefix
sorting first.  The central lemma below shows `scoutfs_kvec_memcmp`
computes `listCmp` of the logical concatenations. -/

def listCmp : List ℕ → List ℕ → Int
  | [], [] => 0
  | [], _ :: _ => -1
  | _ :: _, [] => 1
  | x :: xs, y :: ys =>
    if (x : Int) - (y : Int) ≠ 0 then (x : Int) - (y : Int) else listCmp xs ys

/-- The bytes not yet consumed by a cursor. -/
def iter_rest (st : List (List ℕ) × ℕ) : List ℕ := st.1.flatten.drop st.2

/-- A cursor is normalized when the offset falls inside the current
segment (what `iter_advance`'s while loop establishes). -/
def IterNorm : List (List ℕ) × ℕ → Prop
  | ([], _) => True
  | (s :: _, off) => off < s.length

/-! ### Big-endian increment / decrement (`scoutfs_kvec_be_inc`, `_be_dec`)

The C loops run over segments from last to first and, inside a segment,
over bytes from the last index down.  We model each loop on the
reversed list: `inc_bytes_rev` is the inner `for (b = len-1; b >= 0;
b--)` over one segment's reversed bytes, returning the updated bytes
and whether the loop returned early (the carry stopped). -/

def inc_bytes_rev : List ℕ → List ℕ × Bool
  | [] => ([], false)
  | b :: rest =>
    if (b + 1) % 256 ≠ 0 then ((b + 1) % 256 :: rest, true)
    else ((b + 1) % 256 :: (inc_bytes_rev rest).1, (inc_bytes_rev rest).2)

/-- The inner loop of `scoutfs_kvec_be_dec`: `--byte` on a u8 is
`(b + 255) % 256`; the borrow continues exactly while the decremented
byte wrapped to 0xff. -/
def dec_bytes_rev : List ℕ → List ℕ × Bool
  | [] => ([], false)
  | b :: rest =>
    if (b + 255) % 256 ≠ 255 then ((b + 255) % 256 :: rest, true)
    else ((b + 255) % 256 :: (dec_bytes_rev rest).1, (dec_bytes_rev rest).2)

/-- The outer loop of `scoutfs_kvec_be_inc` over the reversed segment
list: run the inner loop on a segment; if it returned early the
remaining (earlier) segments are untouched, else the carry continues. -/
def be_inc_rev : List (List ℕ) → List (List ℕ)
  | [] => []
  | s :: rest =>
    if (inc_bytes_rev s.reverse).2 then (inc_bytes_rev s.reverse).1.reverse :: rest
    else (inc_bytes_rev s.reverse).1.reverse :: be_inc_rev rest

def be_dec_rev : List (List ℕ) → List (List ℕ)
  | [] => []
  | s :: rest =>
    if (dec_bytes_rev s.reverse).2 then (dec_bytes_rev s.reverse).1.reverse :: rest
    else (dec_bytes_rev s.reverse).1.reverse :: be_dec_rev rest

/-- `scoutfs_kvec_be_inc` (kvec.c:257). -/
def scoutfs_kvec_be_inc (kv : Kvec) : Kvec := (be_inc_rev kv.reverse).reverse

/-- `scoutfs_kvec_be_dec` (kvec.c:270). -/
def scoutfs_kvec_be_dec (kv : Kvec) : Kvec := (be_dec_rev kv.reverse).reverse

/-- Little-endian value of a byte list (least significant byte first). -/
def leNum : List ℕ → ℕ
  | [] => 0
  | b :: rest => b + 256 * leNum rest

/-- Big-endian value of a byte list (most significant byte first). -/
def beNum (l : List ℕ) : ℕ := leNum l.reverse

/-! ### `scoutfs_kvec_memcpy` and `scoutfs_kvec_dup_flatten`

The C memcpy loop writes through the destination cursor's pointer, so
its `iter_advance` steps past segments whose buffers were already
written.  The functional model keeps those segments (`acc`) instead of
dropping them, so the rewritten destination can be returned. -/

def iter_norm_collect : List (List ℕ) → ℕ → List (List ℕ) →
    List (List ℕ) × (List (List ℕ) × ℕ)
  | [], off, acc => (acc, ([], off))
  | s :: rest, off, acc =>
    if s.length ≤ off then iter_norm_collect rest (off - s.length) (acc ++ [s])
    else (acc, (s :: rest, off))

/-- The `memcpy(iter_ptr(&dst_iter), iter_ptr(&src_iter), len)` step:
overwrite `len` bytes of the destination cursor's current segment at its
offset with the source cursor's next bytes. -/
def write_at : List (List ℕ) × ℕ → List ℕ → ℕ → List (List ℕ)
  | ([], _), _, _ => []
  | (ds :: drest, doff), srcBytes, len =>
    (ds.take doff ++ srcBytes.take len ++ ds.drop (doff + len)) :: drest

/-- The loop of `scoutfs_kvec_memcpy` (kvec.c:135): while
`len = min(contig dst, contig src)` is nonzero, copy `len` bytes into
the destination's current segment and advance both cursors; returns the
rewritten destination segments and the total bytes copied. -/
def memcpy_loop (prev : List (List ℕ)) (dIt sIt : List (List ℕ) × ℕ)
    (copied : ℕ) : List (List ℕ) × ℕ :=
  if h : min (iter_contig dIt) (iter_contig sIt) = 0 then
    (prev ++ dIt.1, copied)
  else
    memcpy_loop
      (prev ++ (iter_norm_collect
        (write_at dIt (iter_bytes sIt) (min (iter_contig dIt) (iter_contig sIt)))
        (dIt.2 + min (iter_contig dIt) (iter_contig sIt)) []).1)
      (iter_norm_collect
        (write_at dIt (iter_bytes sIt) (min (iter_contig dIt) (iter_contig sIt)))
        (dIt.2 + min (iter_contig dIt) (iter_contig sIt)) []).2
      (iter_adv sIt (min (iter_contig dIt) (iter_contig sIt)))
      (copied + min (iter_contig dIt) (iter_contig sIt))
termination_by iterLen sIt
decreasing_by
  · simp only [iter_adv]
    rw [iterLen_iter_norm]
    have hcb := iter_contig_le_iterLen sIt
    have hlen : min (iter_contig dIt) (iter_contig sIt) ≠ 0 := h
    have hoff : sIt.2 ≤ scoutfs_kvec_length sIt.1 := by
      refine iter_off_le_of_contig_ne sIt ?_
      omega
    have hle : iterLen sIt = scoutfs_kvec_length sIt.1 - sIt.2 := rfl
    omega

/-- `scoutfs_kvec_memcpy` (kvec.c:135): copy as much of src as fits in
dst; only the pointed-to buffers change, so the result is the dst
segment list with rewritten contents, plus the count of bytes copied. -/
def scoutfs_kvec_memcpy (dst src : Kvec) : Kvec × ℕ :=
  memcpy_loop (iter_norm_collect dst 0 []).1 (iter_norm_collect dst 0 []).2
    (iter_init src) 0

/-- Modelled from the spec: `scoutfs_kvec_init(kvec, ptr, len)` lives in
kvec.h, which is not under src/; per §4.1, DuplicateFlatten "builds dst
as a single-segment vector over" the new buffer. -/
def scoutfs_kvec_init (buf : List ℕ) : Kvec := [buf]

/-- `scoutfs_kvec_init_null` (kvec.c:211):
`memset(kvec, 0, SCOUTFS_KVEC_BYTES)` zeroes every descriptor of the
array in place — every segment of the argument becomes null/empty. -/
def scoutfs_kvec_init_null (kv : Kvec) : Kvec := kv.map fun _ => []

/-- `scoutfs_kvec_dup_flatten` (kvec.c:182).  `alloc` stands for the
`kmalloc(len, GFP_NOFS)` result: `none` is allocation failure (the
existing dst is nulled and -ENOMEM returned), `some buf` a fresh buffer
whose contents are arbitrary; the caller passes one of
`scoutfs_kvec_length src` bytes.  On success the existing dst is
clobbered by `scoutfs_kvec_init` and filled from src. -/
def scoutfs_kvec_dup_flatten (alloc : Option (List ℕ)) (dst src : Kvec) :
    Kvec × Int :=
  match alloc with
  | none => (scoutfs_kvec_init_null dst, -12)
  | some buf => ((scoutfs_kvec_memcpy (scoutfs_kvec_init buf) src).1, 0)

/-! ### Descriptor-level model for `scoutfs_kvec_kfree`

`scoutfs_kvec_kfree` manipulates the `(iov_base, iov_len)` descriptors
themselves, so for it the kvec is modelled at the descriptor level:
`iov_base` is `none` for NULL or an abstract buffer address, `iov_len`
the stored length field. -/

structure KvecSeg where
  iov_base : Option ℕ
  iov_len : ℕ
deriving DecidableEq, Repr

/-- Descriptor-level `scoutfs_kvec_length` (kvec.h): sum of the
`iov_len` fields. -/
def kvec_length_desc (kv : List KvecSeg) : ℕ := (kv.map KvecSeg.iov_len).sum

/-- `scoutfs_kvec_kfree` (kvec.c:201): for every element, `kfree` the
buffer and set `iov_base` to NULL.  No other field is written. -/
def scoutfs_kvec_kfree (kv : List KvecSeg) : List KvecSeg :=
  kv.map fun s => { s with iov_base := none }

/-! ## Superblock store and statistics reporter

Modelled from the spec where format.h is not under src/: a replica
(`struct scoutfs_super_block`) holds an 8-byte magic identifier `id`,
a header with the replica-slot block number and the sequence number
(the header checksum is computed and verified by the block layer), the
total block count and the 128-bit UUID (16 bytes).
`SCOUTFS_SUPER_ID`, `SCOUTFS_SUPER_BLKNO` and `SCOUTFS_SUPER_NR` are
format.h constants, so they are parameters of the definitions below. -/

structure scoutfs_block_header where
  blkno : ℕ
  seq : ℕ
deriving DecidableEq, Repr

structure scoutfs_super_block where
  hdr : scoutfs_block_header
  id : ℕ
  total_blocks : ℕ
  uuid : List ℕ
deriving DecidableEq, Repr

/-- The in-memory mount state holding the working superblock and the
stable (last durably written) copy. -/
structure scoutfs_sb_info where
  super : scoutfs_super_block
  stable_super : scoutfs_super_block
deriving DecidableEq, Repr

/-- The kzalloc'd `scoutfs_sb_info.super` before `read_supers` runs. -/
def zero_super : scoutfs_super_block :=
  ⟨⟨0, 0⟩, 0, 0, List.replicate 16 0⟩

/-- The scan loop of `read_supers`: one `Option scoutfs_super_block` per
replica slot, `none` for a failed `scoutfs_block_read` (I/O error or the
block layer's checksum rejection).  A read failure or id mismatch is
skipped (warn and continue); a valid slot replaces the running best when
none is held yet or its sequence number is strictly greater. -/
def read_supers_loop (superId : ℕ) :
    List (Option scoutfs_super_block) → ℕ → Option ℕ → scoutfs_super_block →
      Option ℕ × scoutfs_super_block
  | [], _, found, cur => (found, cur)
  | none :: rest, i, found, cur => read_supers_loop superId rest (i + 1) found cur
  | some s :: rest, i, found, cur =>
    if s.id ≠ superId then read_supers_loop superId rest (i + 1) found cur
    else if found = none ∨ s.hdr.seq > cur.hdr.seq then
      read_supers_loop superId rest (i + 1) (some i) s
    else read_supers_loop superId rest (i + 1) found cur

/-- `read_supers` (super.c:135): scan every slot; with no valid replica
fail with -EINVAL, else adopt the selected replica as both the current
and the stable in-memory superblock, reporting the slot index used. -/
def read_supers (superId : ℕ) (slots : List (Option scoutfs_super_block)) :
    Except Int (ℕ × scoutfs_sb_info) :=
  match read_supers_loop superId slots 0 none zero_super with
  | (none, _) => Except.error (-22)
  | (some i, s) => Except.ok (i, ⟨s, s⟩)

/-- Replacing every id-mismatched slot by a plain read failure: both are
soft rejections of `read_supers`. -/
def soft_reject (superId : ℕ) :
    Option scoutfs_super_block → Option scoutfs_super_block
  | none => none
  | some s => if s.id = superId then some s else none

/-- `scoutfs_advance_dirty_super` (super.c:90): copy the current super
into the stable copy, then advance the current copy's replica-slot block
number (wrapping from the last ring slot back to the first) and add 1 to
its sequence number.  All three fields are 64-bit little-endian on disk,
hence the `% 2^64`.  Purely in-memory: no durable write happens here. -/
def scoutfs_advance_dirty_super (SUPER_BLKNO SUPER_NR : ℕ)
    (sbi : scoutfs_sb_info) : scoutfs_sb_info :=
  { stable_super := sbi.super
    super := { sbi.super with
      hdr :=
        { blkno :=
            if (sbi.super.hdr.blkno + 1) % 2 ^ 64 =
                (SUPER_BLKNO + SUPER_NR) % 2 ^ 64
            then SUPER_BLKNO % 2 ^ 64
            else (sbi.super.hdr.blkno + 1) % 2 ^ 64
          seq := (sbi.super.hdr.seq + 1) % 2 ^ 64 } } }

/-- The statistics structure filled by `scoutfs_statfs`; `f_fsid_val0/1`
are the two 32-bit halves of the reported filesystem id. -/
structure kstatfs where
  f_type : ℕ
  f_bsize : ℕ
  f_blocks : ℕ
  f_bfree : ℕ
  f_bavail : ℕ
  f_ffree : ℕ
  f_files : ℕ
  f_fsid_val0 : ℕ
  f_fsid_val1 : ℕ
  f_namelen : ℕ
  f_frsize : ℕ
deriving DecidableEq, Repr

/-- The j-th little-endian 32-bit word of the 16 UUID bytes
(`__le32 *uuid = (void *)super->uuid`). -/
def le32_word (uuid : List ℕ) (j : ℕ) : ℕ :=
  uuid.getD (4 * j) 0 + 256 * uuid.getD (4 * j + 1) 0 +
    65536 * uuid.getD (4 * j + 2) 0 + 16777216 * uuid.getD (4 * j + 3) 0

/-- `scoutfs_statfs` (super.c:45).  `bfree_result` is the
`scoutfs_buddy_bfree` collaborator's answer (its failure fails the whole
report); `last_ino` is `scoutfs_last_ino(sb)`, the highest inode number
ever allocated.  `MAGIC`, `BLOCK_SIZE` and `NAME_LEN` stand for the
format.h constants the function copies into the result. -/
def scoutfs_statfs (MAGIC BLOCK_SIZE NAME_LEN : ℕ)
    (bfree_result : Except Int ℕ) (super : scoutfs_super_block)
    (last_ino : ℕ) : Except Int kstatfs :=
  match bfree_result with
  | Except.error e => Except.error e
  | Except.ok bfree =>
    Except.ok
      { f_type := MAGIC
        f_bsize := BLOCK_SIZE
        f_blocks := super.total_blocks
        f_bfree := bfree
        f_bavail := bfree
        f_ffree := bfree * 17 % 2 ^ 64
        f_files := (bfree * 17 % 2 ^ 64 + last_ino) % 2 ^ 64
        f_fsid_val0 := Nat.xor (le32_word super.uuid 0) (le32_word super.uuid 1)
        f_fsid_val1 := Nat.xor (le32_word super.uuid 2) (le32_word super.uuid 3)
        f_namelen := NAME_LEN
        f_frsize := BLOCK_SIZE }

theorem iter_norm_normal (segs : List (List ℕ)) (off : ℕ) :
    IterNorm (iter_norm segs off) := by
  induction segs generalizing off with
  | nil => simp [iter_norm, IterNorm]
  | cons s rest ih =>
    by_cases h : s.length ≤ off
    · simpa [iter_norm, h] using ih (off - s.length)
    · simp only [iter_norm, if_neg h, IterNorm]
      omega

theorem iter_norm_rest (segs : List (List ℕ)) (off : ℕ) :
    iter_rest (iter_norm segs off) = segs.flatten.drop off := by
  induction segs generalizing off with
  | nil => simp [iter_norm, iter_rest]
  | cons s rest ih =>
    by_cases h : s.length ≤ off
    · rw [iter_norm, if_pos h, ih]
      simp only [List.flatten_cons, List.drop_append_eq_append_drop,
        List.drop_eq_nil_of_le h, List.nil_append]
    · simp [iter_norm, if_neg h, iter_rest]

theorem length_iter_rest (st : List (List ℕ) × ℕ) :
    (iter_rest st).length = iterLen st := by
  obtain ⟨segs, off⟩ := st
  simp [iter_rest, iterLen, List.length_flatten, scoutfs_kvec_length]

theorem contig_zero_iff_rest_nil (st : List (List ℕ) × ℕ) (h : IterNorm st) :
    iter_contig st = 0 ↔ iter_rest st = [] := by
  obtain ⟨segs, off⟩ := st
  cases segs with
  | nil => simp [iter_contig, iter_rest]
  | cons s rest =>
    simp only [IterNorm] at h
    simp only [iter_contig]
    rw [← List.length_eq_zero, length_iter_rest]
    simp only [iterLen, scoutfs_kvec_length, List.map_cons, List.sum_cons]
    omega

theorem listCmp_take_append (n : ℕ) (xs ys u v : List ℕ)
    (hx : n ≤ xs.length) (hy : n ≤ ys.length) :
    listCmp (xs.take n ++ u) (ys.take n ++ v) =
      if memcmp_bytes n xs ys = 0 then listCmp u v else memcmp_bytes n xs ys := by
  induction n generalizing xs ys with
  | zero => simp [memcmp_bytes]
  | succ n ih =>
    match xs, ys with
    | x :: xs', y :: ys' =>
      have hx' : n ≤ xs'.length := by simpa using hx
      have hy' : n ≤ ys'.length := by simpa using hy
      by_cases hxy : (x : Int) - (y : Int) ≠ 0
      · simp [List.take_succ_cons, listCmp, memcmp_bytes, hxy]
      · have hxy0 : (x : Int) - (y : Int) = 0 := by
          simpa using hxy
        simp only [List.take_succ_cons, List.cons_append, listCmp, memcmp_bytes,
          hxy0, ne_eq, not_true_eq_false, if_false, ite_false, not_false_eq_true]
        simpa using ih xs' ys' hx' hy'
    | [], _ => simp at hx
    | x :: xs', [] => simp at hy

theorem rest_take_chunk (s : List ℕ) (r : List (List ℕ)) (off len : ℕ)
    (hoff : off < s.length) (hlen : len ≤ s.length - off) :
    iter_rest (s :: r, off) =
      (s.drop off).take len ++ iter_rest (iter_adv (s :: r, off) len) := by
  have h1 : iter_rest (s :: r, off) = s.drop off ++ r.flatten := by
    simp only [iter_rest, List.flatten_cons, List.drop_append_eq_append_drop]
    rw [Nat.sub_eq_zero_of_le (le_of_lt hoff), List.drop_zero]
  have h2 : iter_rest (iter_adv (s :: r, off) len) =
      (iter_rest (s :: r, off)).drop len := by
    rw [iter_adv, iter_norm_rest]
    simp only [iter_rest, List.drop_drop]
  rw [h2]
  conv_lhs => rw [← List.take_append_drop len (iter_rest (s :: r, off))]
  congr 1
  rw [h1, List.take_append_eq_append_take]
  have hl : len ≤ (s.drop off).length := by
    rw [List.length_drop]; omega
  rw [Nat.sub_eq_zero_of_le hl, List.take_zero, List.append_nil]

theorem memcmp_loop_exit (a b : List (List ℕ) × ℕ) (ha : IterNorm a)
    (hb : IterNorm b) (h : min (iter_contig a) (iter_contig b) = 0) :
    memcmp_loop a b = listCmp (iter_rest a) (iter_rest b) := by
  rw [memcmp_loop, dif_pos h]
  by_cases hca : iter_contig a = 0
  · have hra : iter_rest a = [] := (contig_zero_iff_rest_nil a ha).mp hca
    by_cases hcb : iter_contig b = 0
    · have hrb : iter_rest b = [] := (contig_zero_iff_rest_nil b hb).mp hcb
      simp [hca, hcb, hra, hrb, listCmp]
    · have hrb : iter_rest b ≠ [] := fun hn =>
        hcb ((contig_zero_iff_rest_nil b hb).mpr hn)
      rcases heq : iter_rest b with _ | ⟨y, ys⟩
      · exact absurd heq hrb
      · simp [hca, hcb, hra, heq, listCmp]
  · have hcb : iter_contig b = 0 := by omega
    have hra : iter_rest a ≠ [] := fun hn =>
      hca ((contig_zero_iff_rest_nil a ha).mpr hn)
    have hrb : iter_rest b = [] := (contig_zero_iff_rest_nil b hb).mp hcb
    rcases heq : iter_rest a with _ | ⟨x, xs⟩
    · exact absurd heq hra
    · simp [hca, hrb, heq, listCmp]

theorem memcmp_loop_eq_listCmp (n : ℕ) :
    ∀ a b, iterLen a ≤ n → IterNorm a → IterNorm b →
    memcmp_loop a b = listCmp (iter_rest a) (iter_rest b) := by
  induction n with
  | zero =>
    intro a b hn ha hb
    refine memcmp_loop_exit a b ha hb ?_
    have := iter_contig_le_iterLen a
    omega
  | succ n ih =>
    intro a b hn ha hb
    by_cases h0 : min (iter_contig a) (iter_contig b) = 0
    · exact memcmp_loop_exit a b ha hb h0
    · obtain ⟨sa, ra, offa, hA⟩ : ∃ sa ra offa, a = (sa :: ra, offa) := by
        rcases a with ⟨segsa, offa⟩
        cases segsa with
        | nil => simp [iter_contig] at h0
        | cons s r => exact ⟨s, r, offa, rfl⟩
      obtain ⟨sb, rb, offb, hB⟩ : ∃ sb rb offb, b = (sb :: rb, offb) := by
        rcases b with ⟨segsb, offb⟩
        cases segsb with
        | nil => simp [iter_contig] at h0
        | cons s r => exact ⟨s, r, offb, rfl⟩
      subst hA hB
      have hoffa : offa < sa.length := ha
      have hoffb : offb < sb.length := hb
      have hca : iter_contig (sa :: ra, offa) = sa.length - offa := rfl
      have hcb : iter_contig (sb :: rb, offb) = sb.length - offb := rfl
      set len := min (iter_contig (sa :: ra, offa)) (iter_contig (sb :: rb, offb))
        with hlen
      have hlena : len ≤ sa.length - offa := by rw [hlen, hca]; omega
      have hlenb : len ≤ sb.length - offb := by
        rw [hlen, hcb]
        exact min_le_right _ _
      have hxa : len ≤ (sa.drop offa).length := by
        rw [List.length_drop]; omega
      have hxb : len ≤ (sb.drop offb).length := by
        rw [List.length_drop]; omega
      rw [rest_take_chunk sa ra offa len hoffa hlena,
        rest_take_chunk sb rb offb len hoffb hlenb,
        listCmp_take_append len (sa.drop offa) (sb.drop offb) _ _ hxa hxb]
      rw [memcmp_loop, dif_neg h0]
      have hbytes_a : iter_bytes (sa :: ra, offa) = sa.drop offa := rfl
      have hbytes_b : iter_bytes (sb :: rb, offb) = sb.drop offb := rfl
      rw [← hlen, hbytes_a, hbytes_b]
      by_cases hmb : memcmp_bytes len (sa.drop offa) (sb.drop offb) = 0
      · rw [if_neg (by simpa using hmb), if_pos hmb]
        refine ih _ _ ?_ ?_ ?_
        · have h1 : iterLen (iter_adv (sa :: ra, offa) len) =
              scoutfs_kvec_length (sa :: ra) - (offa + len) := by
            rw [iter_adv, iterLen_iter_norm]
          have h2 : iterLen (sa :: ra, offa) =
              scoutfs_kvec_length (sa :: ra) - offa := rfl
          have h3 : sa.length ≤ scoutfs_kvec_length (sa :: ra) := by
            simp only [scoutfs_kvec_length, List.map_cons, List.sum_cons]
            omega
          have hlpos : len ≠ 0 := by rw [hlen]; exact h0
          omega
        · exact iter_norm_normal _ _
        · exact iter_norm_normal _ _
      · rw [if_pos (by simpa using hmb), if_neg hmb]

/-- `scoutfs_kvec_memcmp` computes the byte comparison of the logical
concatenations of the two vectors' segments. -/
theorem scoutfs_kvec_memcmp_eq_listCmp (a b : Kvec) :
    scoutfs_kvec_memcmp a b = listCmp a.flatten b.flatten := by
  rw [scoutfs_kvec_memcmp,
    memcmp_loop_eq_listCmp (iterLen (iter_init a)) (iter_init a) (iter_init b)
      le_rfl (iter_norm_normal _ _) (iter_norm_normal _ _)]
  unfold iter_init
  rw [iter_norm_rest, iter_norm_rest]
  simp

/-! ### Order-theoretic facts about `listCmp` -/

theorem listCmp_refl (l : List ℕ) : listCmp l l = 0 := by
  induction l with
  | nil => rfl
  | cons x xs ih => simp [listCmp, ih]

theorem listCmp_anti (x y : List ℕ) : listCmp y x = -listCmp x y := by
  induction x generalizing y with
  | nil => cases y <;> simp [listCmp]
  | cons a as ih =>
    cases y with
    | nil => simp [listCmp]
    | cons b bs =>
      simp only [listCmp]
      by_cases h : (a : Int) - (b : Int) = 0
      · have h' : (b : Int) - (a : Int) = 0 := by omega
        simp [h, h', ih]
      · have h' : (b : Int) - (a : Int) ≠ 0 := by omega
        simp only [h, h', ne_eq, not_false_eq_true, if_true, ite_true]
        omega

theorem listCmp_eq_zero_iff (x y : List ℕ) : listCmp x y = 0 ↔ x = y := by
  induction x generalizing y with
  | nil => cases y <;> simp [listCmp]
  | cons a as ih =>
    cases y with
    | nil => simp [listCmp]
    | cons b bs =>
      simp only [listCmp]
      by_cases h : (a : Int) - (b : Int) = 0
      · have hab : a = b := by omega
        simp [h, hab, ih]
      · simp [h]
        omega

theorem listCmp_append_cons (l c : List ℕ) (x : ℕ) :
    listCmp l (l ++ x :: c) = -1 := by
  induction l with
  | nil => simp [listCmp]
  | cons a as ih => simp [listCmp, ih]

theorem listCmp_trans (x y z : List ℕ) (h1 : listCmp x y ≤ 0)
    (h2 : listCmp y z ≤ 0) : listCmp x z ≤ 0 := by
  induction x generalizing y z with
  | nil => cases z <;> simp [listCmp]
  | cons a as ih =>
    cases y with
    | nil => simp [listCmp] at h1
    | cons b bs =>
      cases z with
      | nil => simp [listCmp] at h2
      | cons c cs =>
        simp only [listCmp] at h1 h2 ⊢
        by_cases hab : (a : Int) - (b : Int) = 0
        · by_cases hbc : (b : Int) - (c : Int) = 0
          · have hac : (a : Int) - (c : Int) = 0 := by omega
            rw [if_neg (by omega : ¬((a : Int) - (b : Int) ≠ 0))] at h1
            rw [if_neg (by omega : ¬((b : Int) - (c : Int) ≠ 0))] at h2
            rw [if_neg (by omega : ¬((a : Int) - (c : Int) ≠ 0))]
            exact ih bs cs h1 h2
          · have hbc' : (b : Int) - (c : Int) < 0 := by
              rw [if_pos hbc] at h2
              omega
            have hac : (a : Int) - (c : Int) < 0 := by omega
            rw [if_pos (by omega)]
            omega
        · have hab' : (a : Int) - (b : Int) < 0 := by
            rw [if_pos hab] at h1
            omega
          by_cases hbc : (b : Int) - (c : Int) = 0
          · have hac : (a : Int) - (c : Int) < 0 := by omega
            rw [if_pos (by omega)]
            omega
          · have hbc' : (b : Int) - (c : Int) < 0 := by
              rw [if_pos hbc] at h2
              omega
            have hac : (a : Int) - (c : Int) < 0 := by omega
            rw [if_pos (by omega)]
            omega

/-! ### Claims about the key-vector comparison -/

/-- C3: if the logical concatenation of a's segment bytes is a strict
prefix of the logical concatenation of b's segment bytes, then
`scoutfs_kvec_memcmp a b = -1` and `scoutfs_kvec_memcmp b a = 1`: the
shorter vector sorts first. -/
theorem C3_strict_prefix_sorts_first (a b : Kvec) (c : List ℕ) (hc : c ≠ [])
    (hpre : b.flatten = a.flatten ++ c) :
    scoutfs_kvec_memcmp a b = -1 ∧ scoutfs_kvec_memcmp b a = 1 := by
  rcases c with _ | ⟨x, xs⟩
  · exact absurd rfl hc
  · constructor
    · rw [scoutfs_kvec_memcmp_eq_listCmp, hpre, listCmp_append_cons]
    · rw [scoutfs_kvec_memcmp_eq_listCmp, hpre, listCmp_anti,
        listCmp_append_cons]
      rfl

/-- Witness for C3 at concrete vectors: a = [[1],[2]] (bytes 1 2) is a
strict prefix of b = [[1,2],[3]] (bytes 1 2 3). -/
theorem C3_strict_prefix_sorts_first_witness :
    scoutfs_kvec_memcmp [[1], [2]] [[1, 2], [3]] = -1 ∧
      scoutfs_kvec_memcmp [[1, 2], [3]] [[1], [2]] = 1 :=
  C3_strict_prefix_sorts_first [[1], [2]] [[1, 2], [3]] [3]
    (by decide) (by decide)

/-- C4: `scoutfs_kvec_memcmp` returns 0 on vectors whose segments
concatenate to the same byte sequence, and more generally depends only
on the logical concatenations, never on how the bytes are split across
segments; in particular the 2-segment vectors ["ab","c"] and ["a","bc"]
compare equal. -/
theorem C4_compare_depends_only_on_concatenation :
    (∀ a b : Kvec, a.flatten = b.flatten → scoutfs_kvec_memcmp a b = 0) ∧
    (∀ a b a' b' : Kvec, a.flatten = a'.flatten → b.flatten = b'.flatten →
      scoutfs_kvec_memcmp a b = scoutfs_kvec_memcmp a' b') ∧
    scoutfs_kvec_memcmp [[97, 98], [99]] [[97], [98, 99]] = 0 := by
  refine ⟨?_, ?_, ?_⟩
  · intro a b h
    rw [scoutfs_kvec_memcmp_eq_listCmp, h, listCmp_refl]
  · intro a b a' b' ha hb
    rw [scoutfs_kvec_memcmp_eq_listCmp, scoutfs_kvec_memcmp_eq_listCmp,
      ha, hb]
  · rw [scoutfs_kvec_memcmp_eq_listCmp]
    decide

/-- Witness for C4: the split ["ab","c"] vs ["a","bc"] of the same bytes
compares equal, obtained through the claim theorem itself. -/
theorem C4_compare_depends_only_on_concatenation_witness :
    scoutfs_kvec_memcmp [[97, 98], [99]] [[97], [98, 99]] = 0 :=
  C4_compare_depends_only_on_concatenation.1 [[97, 98], [99]] [[97], [98, 99]]
    (by decide)

/-- C5: `scoutfs_kvec_cmp_overlap a b c d` is -1 when Compare(b,c) < 0,
else 1 when Compare(a,d) > 0, else 0; and for well-formed closed ranges
[a,b] and [c,d] it returns 0 exactly when the ranges share at least one
key (a byte string lying between both pairs of endpoints in comparison
order). -/
theorem C5_cmp_overlap_ranges :
    (∀ a b c d : Kvec, scoutfs_kvec_cmp_overlap a b c d =
      if scoutfs_kvec_memcmp b c < 0 then -1
      else if scoutfs_kvec_memcmp a d > 0 then 1 else 0) ∧
    (∀ a b c d : Kvec, scoutfs_kvec_memcmp a b ≤ 0 →
      scoutfs_kvec_memcmp c d ≤ 0 →
      (scoutfs_kvec_cmp_overlap a b c d = 0 ↔
        ∃ k : List ℕ, listCmp a.flatten k ≤ 0 ∧ listCmp k b.flatten ≤ 0 ∧
          listCmp c.flatten k ≤ 0 ∧ listCmp k d.flatten ≤ 0)) := by
  constructor
  · intro a b c d
    rfl
  · intro a b c d hab hcd
    rw [scoutfs_kvec_memcmp_eq_listCmp] at hab hcd
    rw [scoutfs_kvec_cmp_overlap, scoutfs_kvec_memcmp_eq_listCmp,
      scoutfs_kvec_memcmp_eq_listCmp]
    constructor
    · intro h0
      have hBC : ¬ listCmp b.flatten c.flatten < 0 := by
        intro hlt
        rw [if_pos hlt] at h0
        exact absurd h0 (by decide)
      have hAD : ¬ listCmp a.flatten d.flatten > 0 := by
        intro hgt
        rw [if_neg hBC, if_pos hgt] at h0
        exact absurd h0 (by decide)
      by_cases hAC : listCmp a.flatten c.flatten ≤ 0
      · refine ⟨c.flatten, hAC, ?_, ?_, hcd⟩
        · have := listCmp_anti b.flatten c.flatten
          omega
        · have := listCmp_refl c.flatten
          omega
      · refine ⟨a.flatten, ?_, hab, ?_, ?_⟩
        · have := listCmp_refl a.flatten
          omega
        · have := listCmp_anti a.flatten c.flatten
          omega
        · omega
    · rintro ⟨k, hAk, hkB, hCk, hkD⟩
      have hCB : listCmp c.flatten b.flatten ≤ 0 := listCmp_trans _ _ _ hCk hkB
      have hAD : listCmp a.flatten d.flatten ≤ 0 := listCmp_trans _ _ _ hAk hkD
      have hBC := listCmp_anti c.flatten b.flatten
      rw [if_neg (by omega), if_neg (by omega)]

/-- Witness for C5 at concrete ranges [a,b] = [[2],[4]] and
[c,d] = [[3],[9]], which overlap. -/
theorem C5_cmp_overlap_ranges_witness :
    (scoutfs_kvec_cmp_overlap [[2]] [[4]] [[3]] [[9]] =
      if scoutfs_kvec_memcmp [[4]] [[3]] < 0 then -1
      else if scoutfs_kvec_memcmp [[2]] [[9]] > 0 then 1 else 0) ∧
    (scoutfs_kvec_cmp_overlap [[2]] [[4]] [[3]] [[9]] = 0 ↔
      ∃ k : List ℕ, listCmp (List.flatten [[2]]) k ≤ 0 ∧
        listCmp k (List.flatten [[4]]) ≤ 0 ∧
        listCmp (List.flatten [[3]]) k ≤ 0 ∧
        listCmp k (List.flatten [[9]]) ≤ 0) :=
  ⟨C5_cmp_overlap_ranges.1 [[2]] [[4]] [[3]] [[9]],
   C5_cmp_overlap_ranges.2 [[2]] [[4]] [[3]] [[9]]
     (by rw [scoutfs_kvec_memcmp_eq_listCmp]; decide)
     (by rw [scoutfs_kvec_memcmp_eq_listCmp]; decide)⟩

/-! ### Lemmas for big-endian increment / decrement -/

theorem mod_mul_decompose (a b P : ℕ) (ha : a < 256) (hP : 0 < P) :
    (a + 256 * b) % (256 * P) = a + 256 * (b % P) := by
  have hlt : b % P < P := Nat.mod_lt _ hP
  have key : a + 256 * b = (a + 256 * (b % P)) + (256 * P) * (b / P) := by
    have hb : P * (b / P) + b % P = b := Nat.div_add_mod b P
    calc a + 256 * b = a + 256 * (P * (b / P) + b % P) := by rw [hb]
      _ = (a + 256 * (b % P)) + (256 * P) * (b / P) := by ring
  rw [key, Nat.add_mul_mod_self_left]
  exact Nat.mod_eq_of_lt (by omega)

theorem leNum_lt (l : List ℕ) (h : ∀ b ∈ l, b < 256) :
    leNum l < 256 ^ l.length := by
  induction l with
  | nil => simp [leNum]
  | cons b r ih =>
    have hb : b < 256 := h b (by simp)
    have hr := ih (fun x hx => h x (by simp [hx]))
    simp only [leNum, List.length_cons, pow_succ]
    omega

theorem inc_bytes_rev_leNum (l : List ℕ) (h : ∀ b ∈ l, b < 256) :
    leNum (inc_bytes_rev l).1 = (leNum l + 1) % 256 ^ l.length := by
  induction l with
  | nil => simp [inc_bytes_rev, leNum]
  | cons b r ih =>
    have hb : b < 256 := h b (by simp)
    have hr : ∀ x ∈ r, x < 256 := fun x hx => h x (by simp [hx])
    have hL := leNum_lt r hr
    by_cases hbw : b = 255
    · subst hbw
      have h256 : (255 + 1) % 256 = 0 := by norm_num
      simp only [inc_bytes_rev, h256, ne_eq, not_true_eq_false, ite_false,
        if_neg (by omega : ¬(0 : ℕ) ≠ 0)]
      simp only [leNum, List.length_cons, pow_succ, ih hr]
      have hcomm : 256 ^ r.length * 256 = 256 * 256 ^ r.length := by ring
      rw [hcomm]
      have harg : 255 + 256 * leNum r + 1 = 256 * (leNum r + 1) := by omega
      rw [harg, Nat.mul_mod_mul_left]
      omega
    · have h1 : (b + 1) % 256 = b + 1 := Nat.mod_eq_of_lt (by omega)
      simp only [inc_bytes_rev, h1]
      rw [if_pos (by omega : (b + 1 : ℕ) ≠ 0)]
      have hbound : leNum (b :: r) + 1 < 256 ^ (b :: r).length := by
        simp only [leNum, List.length_cons, pow_succ]
        omega
      rw [Nat.mod_eq_of_lt hbound]
      simp only [leNum]
      omega

theorem dec_bytes_rev_leNum (l : List ℕ) (h : ∀ b ∈ l, b < 256) :
    leNum (dec_bytes_rev l).1 = (leNum l + (256 ^ l.length - 1)) % 256 ^ l.length := by
  induction l with
  | nil => simp [dec_bytes_rev, leNum]
  | cons b r ih =>
    have hb : b < 256 := h b (by simp)
    have hr : ∀ x ∈ r, x < 256 := fun x hx => h x (by simp [hx])
    have hL := leNum_lt r hr
    have hP : 0 < 256 ^ r.length := pow_pos (by norm_num) _
    by_cases hbw : b = 0
    · subst hbw
      have h255 : (0 + 255) % 256 = 255 := by norm_num
      simp only [dec_bytes_rev, h255, ne_eq, not_true_eq_false, ite_false,
        if_neg (by omega : ¬(255 : ℕ) ≠ 255)]
      simp only [leNum, List.length_cons, pow_succ, ih hr]
      have hcomm : 256 ^ r.length * 256 = 256 * 256 ^ r.length := by ring
      rw [hcomm]
      have harg : 0 + 256 * leNum r + (256 * 256 ^ r.length - 1) =
          255 + 256 * (leNum r + (256 ^ r.length - 1)) := by omega
      rw [harg, mod_mul_decompose 255 _ _ (by norm_num) hP]
    · have h1 : (b + 255) % 256 = b - 1 := by omega
      simp only [dec_bytes_rev, h1]
      rw [if_pos (by omega : (b - 1 : ℕ) ≠ 255)]
      simp only [leNum, List.length_cons, pow_succ]
      have hcomm : 256 ^ r.length * 256 = 256 * 256 ^ r.length := by ring
      rw [hcomm]
      have harg : b + 256 * leNum r + (256 * 256 ^ r.length - 1) =
          (b - 1 + 256 * leNum r) + (256 * 256 ^ r.length) * 1 := by omega
      rw [harg, Nat.add_mul_mod_self_left]
      exact (Nat.mod_eq_of_lt (by omega)).symm

theorem inc_bytes_rev_append (u v : List ℕ) :
    inc_bytes_rev (u ++ v) =
      if (inc_bytes_rev u).2 then ((inc_bytes_rev u).1 ++ v, true)
      else ((inc_bytes_rev u).1 ++ (inc_bytes_rev v).1, (inc_bytes_rev v).2) := by
  induction u with
  | nil => simp [inc_bytes_rev]
  | cons b r ih =>
    by_cases hb : (b + 1) % 256 ≠ 0
    · simp [inc_bytes_rev, hb]
    · simp only [List.cons_append, inc_bytes_rev, hb, ite_false, if_neg hb,
        List.append_eq]
      rw [ih]
      by_cases hrr : (inc_bytes_rev r).2
      · simp [hrr]
      · simp [hrr]

theorem dec_bytes_rev_append (u v : List ℕ) :
    dec_bytes_rev (u ++ v) =
      if (dec_bytes_rev u).2 then ((dec_bytes_rev u).1 ++ v, true)
      else ((dec_bytes_rev u).1 ++ (dec_bytes_rev v).1, (dec_bytes_rev v).2) := by
  induction u with
  | nil => simp [dec_bytes_rev]
  | cons b r ih =>
    by_cases hb : (b + 255) % 256 ≠ 255
    · simp [dec_bytes_rev, hb]
    · simp only [List.cons_append, dec_bytes_rev, hb, ite_false, if_neg hb,
        List.append_eq]
      rw [ih]
      by_cases hrr : (dec_bytes_rev r).2
      · simp [hrr]
      · simp [hrr]

theorem dec_inc_bytes_rev (l : List ℕ) (h : ∀ b ∈ l, b < 256) :
    dec_bytes_rev (inc_bytes_rev l).1 = (l, (inc_bytes_rev l).2) := by
  induction l with
  | nil => simp [inc_bytes_rev, dec_bytes_rev]
  | cons b r ih =>
    have hb : b < 256 := h b (by simp)
    have hr : ∀ x ∈ r, x < 256 := fun x hx => h x (by simp [hx])
    by_cases hbw : b = 255
    · subst hbw
      have h256 : (255 + 1) % 256 = 0 := by norm_num
      simp only [inc_bytes_rev, h256, ne_eq, if_neg (by omega : ¬(0 : ℕ) ≠ 0)]
      have h255 : (0 + 255) % 256 = 255 := by norm_num
      simp only [dec_bytes_rev, h255, ne_eq, if_neg (by omega : ¬(255 : ℕ) ≠ 255)]
      rw [ih hr]
      simp
    · have h1 : (b + 1) % 256 = b + 1 := Nat.mod_eq_of_lt (by omega)
      simp only [inc_bytes_rev, h1]
      rw [if_pos (by omega : (b + 1 : ℕ) ≠ 0)]
      have h2 : (b + 1 + 255) % 256 = b := by omega
      simp only [dec_bytes_rev, h2]
      rw [if_pos (by omega : (b : ℕ) ≠ 255)]

theorem be_dec_rev_be_inc_rev (segs : List (List ℕ))
    (h : ∀ s ∈ segs, ∀ b ∈ s, b < 256) :
    be_dec_rev (be_inc_rev segs) = segs := by
  induction segs with
  | nil => rfl
  | cons s rest ih =>
    have hs : ∀ b ∈ s.reverse, b < 256 := fun b hb =>
      h s (by simp) b (List.mem_reverse.mp hb)
    have hdi := dec_inc_bytes_rev s.reverse hs
    cases hdone : (inc_bytes_rev s.reverse).2 with
    | true =>
      simp only [be_inc_rev, hdone, ite_true]
      simp [be_dec_rev, List.reverse_reverse, hdi, hdone]
    | false =>
      simp only [be_inc_rev, hdone, ite_false]
      simp [be_dec_rev, List.reverse_reverse, hdi, hdone,
        ih (fun t ht b hb => h t (by simp [ht]) b hb)]

theorem flatten_reverse_rev (M : List (List ℕ)) :
    M.reverse.flatten.reverse = (M.map List.reverse).flatten := by
  induction M with
  | nil => simp
  | cons s rest ih =>
    simp [List.reverse_cons, List.flatten_append, List.reverse_append, ih]

theorem be_inc_rev_flat (segs : List (List ℕ)) :
    ((be_inc_rev segs).map List.reverse).flatten =
      (inc_bytes_rev ((segs.map List.reverse).flatten)).1 := by
  induction segs with
  | nil => simp [be_inc_rev, inc_bytes_rev]
  | cons s rest ih =>
    simp only [List.map_cons, List.flatten_cons]
    rw [inc_bytes_rev_append]
    by_cases hdone : (inc_bytes_rev s.reverse).2
    · simp [be_inc_rev, hdone, List.reverse_reverse]
    · simp [be_inc_rev, hdone, List.reverse_reverse, ih]

theorem be_dec_rev_flat (segs : List (List ℕ)) :
    ((be_dec_rev segs).map List.reverse).flatten =
      (dec_bytes_rev ((segs.map List.reverse).flatten)).1 := by
  induction segs with
  | nil => simp [be_dec_rev, dec_bytes_rev]
  | cons s rest ih =>
    simp only [List.map_cons, List.flatten_cons]
    rw [dec_bytes_rev_append]
    by_cases hdone : (dec_bytes_rev s.reverse).2
    · simp [be_dec_rev, hdone, List.reverse_reverse]
    · simp [be_dec_rev, hdone, List.reverse_reverse, ih]

theorem inc_bytes_rev_all255 (l : List ℕ) (h : ∀ b ∈ l, b = 255) :
    inc_bytes_rev l = (l.map fun _ => 0, false) := by
  induction l with
  | nil => simp [inc_bytes_rev]
  | cons b r ih =>
    have hb : b = 255 := h b (by simp)
    subst hb
    have h256 : (255 + 1) % 256 = 0 := by norm_num
    simp only [inc_bytes_rev, h256, ne_eq, if_neg (by omega : ¬(0 : ℕ) ≠ 0)]
    rw [ih (fun x hx => h x (by simp [hx]))]
    simp

theorem dec_bytes_rev_all0 (l : List ℕ) (h : ∀ b ∈ l, b = 0) :
    dec_bytes_rev l = (l.map fun _ => 255, false) := by
  induction l with
  | nil => simp [dec_bytes_rev]
  | cons b r ih =>
    have hb : b = 0 := h b (by simp)
    subst hb
    have h255 : (0 + 255) % 256 = 255 := by norm_num
    simp only [dec_bytes_rev, h255, ne_eq, if_neg (by omega : ¬(255 : ℕ) ≠ 255)]
    rw [ih (fun x hx => h x (by simp [hx]))]
    simp

theorem be_inc_rev_all255 (segs : List (List ℕ))
    (h : ∀ s ∈ segs, ∀ b ∈ s, b = 255) :
    be_inc_rev segs = segs.map (List.map fun _ => 0) := by
  induction segs with
  | nil => rfl
  | cons s rest ih =>
    have hs : ∀ b ∈ s.reverse, b = 255 := fun b hb =>
      h s (by simp) b (List.mem_reverse.mp hb)
    rw [be_inc_rev, inc_bytes_rev_all255 s.reverse hs]
    simp [List.map_reverse, ih (fun t ht b hb => h t (by simp [ht]) b hb)]

theorem be_dec_rev_all0 (segs : List (List ℕ))
    (h : ∀ s ∈ segs, ∀ b ∈ s, b = 0) :
    be_dec_rev segs = segs.map (List.map fun _ => 255) := by
  induction segs with
  | nil => rfl
  | cons s rest ih =>
    have hs : ∀ b ∈ s.reverse, b = 0 := fun b hb =>
      h s (by simp) b (List.mem_reverse.mp hb)
    rw [be_dec_rev, dec_bytes_rev_all0 s.reverse hs]
    simp [List.map_reverse, ih (fun t ht b hb => h t (by simp [ht]) b hb)]

theorem KvecWF_flatten_reverse (kv : Kvec) (h : KvecWF kv) :
    ∀ b ∈ kv.flatten.reverse, b < 256 := by
  intro b hb
  rw [List.mem_reverse] at hb
  obtain ⟨s, hs, hbs⟩ := List.mem_flatten.mp hb
  exact h s hs b hbs

theorem be_inc_flat_bytes (kv : Kvec) :
    (scoutfs_kvec_be_inc kv).flatten.reverse =
      (inc_bytes_rev kv.flatten.reverse).1 := by
  rw [scoutfs_kvec_be_inc, flatten_reverse_rev, be_inc_rev_flat,
    ← flatten_reverse_rev, List.reverse_reverse]

theorem be_dec_flat_bytes (kv : Kvec) :
    (scoutfs_kvec_be_dec kv).flatten.reverse =
      (dec_bytes_rev kv.flatten.reverse).1 := by
  rw [scoutfs_kvec_be_dec, flatten_reverse_rev, be_dec_rev_flat,
    ← flatten_reverse_rev, List.reverse_reverse]

/-- C6: on a byte-wellformed vector, IncrementBigEndian then
DecrementBigEndian restores the original; both operations act on the
concatenated byte sequence as a single big-endian unsigned integer
(mod 256^length, carry/borrow crossing segment boundaries), and at the
extremes they wrap: all-0xFF increments to all-0x00 and all-0x00
decrements to all-0xFF, preserving the segment shape. -/
theorem C6_be_inc_dec_roundtrip :
    (∀ kv : Kvec, KvecWF kv →
      scoutfs_kvec_be_dec (scoutfs_kvec_be_inc kv) = kv) ∧
    (∀ kv : Kvec, KvecWF kv →
      beNum (scoutfs_kvec_be_inc kv).flatten =
        (beNum kv.flatten + 1) % 256 ^ scoutfs_kvec_length kv) ∧
    (∀ kv : Kvec, KvecWF kv →
      beNum (scoutfs_kvec_be_dec kv).flatten =
        (beNum kv.flatten + (256 ^ scoutfs_kvec_length kv - 1)) %
          256 ^ scoutfs_kvec_length kv) ∧
    (∀ kv : Kvec, (∀ s ∈ kv, ∀ b ∈ s, b = 255) →
      scoutfs_kvec_be_inc kv = kv.map (List.map fun _ => 0)) ∧
    (∀ kv : Kvec, (∀ s ∈ kv, ∀ b ∈ s, b = 0) →
      scoutfs_kvec_be_dec kv = kv.map (List.map fun _ => 255)) := by
  have hlen : ∀ kv : Kvec, kv.flatten.reverse.length = scoutfs_kvec_length kv := by
    intro kv
    rw [List.length_reverse, List.length_flatten]
    rfl
  refine ⟨?_, ?_, ?_, ?_, ?_⟩
  · intro kv h
    rw [scoutfs_kvec_be_dec, scoutfs_kvec_be_inc, List.reverse_reverse,
      be_dec_rev_be_inc_rev, List.reverse_reverse]
    intro s hs
    exact h s (List.mem_reverse.mp hs)
  · intro kv h
    rw [beNum, be_inc_flat_bytes,
      inc_bytes_rev_leNum _ (KvecWF_flatten_reverse kv h), hlen, beNum]
  · intro kv h
    rw [beNum, be_dec_flat_bytes,
      dec_bytes_rev_leNum _ (KvecWF_flatten_reverse kv h), hlen, beNum]
  · intro kv h
    rw [scoutfs_kvec_be_inc, be_inc_rev_all255]
    · rw [← List.map_reverse, List.reverse_reverse]
    · intro s hs
      exact h s (List.mem_reverse.mp hs)
  · intro kv h
    rw [scoutfs_kvec_be_dec, be_dec_rev_all0]
    · rw [← List.map_reverse, List.reverse_reverse]
    · intro s hs
      exact h s (List.mem_reverse.mp hs)

/-! ### `scoutfs_kvec_memcpy` into a freshly flattened destination -/

theorem memcpy_loop_single_exit (sIt : List (List ℕ) × ℕ) (buf : List ℕ)
    (doff : ℕ) (prev : List (List ℕ)) (copied : ℕ)
    (hz : iterLen sIt = 0) (hlen : doff + iterLen sIt = buf.length) :
    memcpy_loop prev ([buf], doff) sIt copied =
      (prev ++ [buf.take doff ++ iter_rest sIt], copied + iterLen sIt) := by
  have hcs : iter_contig sIt = 0 := by
    have := iter_contig_le_iterLen sIt
    omega
  have hrest : iter_rest sIt = [] := by
    have := length_iter_rest sIt
    rw [hz] at this
    exact List.length_eq_zero.mp this
  have htake : buf.take doff = buf := List.take_of_length_le (by omega)
  rw [memcpy_loop, dif_pos (by rw [hcs]; omega), hrest, htake, hz]
  simp

theorem memcpy_loop_single (n : ℕ) :
    ∀ (sIt : List (List ℕ) × ℕ) (buf : List ℕ) (doff : ℕ)
      (prev : List (List ℕ)) (copied : ℕ),
      IterNorm sIt → iterLen sIt ≤ n → doff + iterLen sIt = buf.length →
      memcpy_loop prev ([buf], doff) sIt copied =
        (prev ++ [buf.take doff ++ iter_rest sIt], copied + iterLen sIt) := by
  induction n with
  | zero =>
    intro sIt buf doff prev copied hnorm hn hlen
    exact memcpy_loop_single_exit sIt buf doff prev copied (by omega) hlen
  | succ n ih =>
    intro sIt buf doff prev copied hnorm hn hlen
    by_cases hz : iterLen sIt = 0
    · exact memcpy_loop_single_exit sIt buf doff prev copied hz hlen
    · rcases sIt with ⟨segs, soff⟩
      cases segs with
      | nil =>
        exact absurd (by simp [iterLen, scoutfs_kvec_length]) hz
      | cons ss srest =>
        have hsoff : soff < ss.length := hnorm
        have hcle := iter_contig_le_iterLen (ss :: srest, soff)
        have hcd : iter_contig ([buf], doff) = buf.length - doff := rfl
        have hcs : iter_contig (ss :: srest, soff) = ss.length - soff := rfl
        have hmin : min (iter_contig ([buf], doff))
            (iter_contig (ss :: srest, soff)) = ss.length - soff := by
          rw [hcd, hcs]
          omega
        have hlenpos : 0 < ss.length - soff := by omega
        rw [memcpy_loop, dif_neg (by rw [hmin]; omega), hmin]
        have hbytes : iter_bytes (ss :: srest, soff) = ss.drop soff := rfl
        have htakefull : (ss.drop soff).take (ss.length - soff) = ss.drop soff :=
          List.take_of_length_le (by rw [List.length_drop])
        have hwrite : write_at ([buf], doff) (iter_bytes (ss :: srest, soff))
            (ss.length - soff) =
            [buf.take doff ++ ss.drop soff ++ buf.drop (doff + (ss.length - soff))] := by
          rw [write_at, hbytes, htakefull]
        rw [hwrite]
        have hchunk := rest_take_chunk ss srest soff (ss.length - soff) hsoff
          (le_refl _)
        rw [htakefull] at hchunk
        have hadvlen : iterLen (iter_adv (ss :: srest, soff) (ss.length - soff)) =
            iterLen (ss :: srest, soff) - (ss.length - soff) := by
          rw [iter_adv, iterLen_iter_norm]
          simp only [iterLen, scoutfs_kvec_length, List.map_cons, List.sum_cons]
          omega
        have hcontig_le : ss.length - soff ≤ iterLen (ss :: srest, soff) := by
          rw [← hcs]
          exact hcle
        by_cases hend : doff + (ss.length - soff) = buf.length
        · -- the destination buffer is exactly filled: its segment is
          -- collected and the next iteration exits with nothing to do
          have hdrop : buf.drop (doff + (ss.length - soff)) = [] :=
            List.drop_eq_nil_of_le (by omega)
          have hlen' : (buf.take doff ++ ss.drop soff ++
              buf.drop (doff + (ss.length - soff))).length = buf.length := by
            simp [hdrop, List.length_drop]
            omega
          have hcollect : iter_norm_collect
              [buf.take doff ++ ss.drop soff ++ buf.drop (doff + (ss.length - soff))]
              (doff + (ss.length - soff)) [] =
              ([buf.take doff ++ ss.drop soff ++
                buf.drop (doff + (ss.length - soff))], ([], 0)) := by
            rw [iter_norm_collect, if_pos (by omega), iter_norm_collect]
            congr 2
            omega
          rw [hcollect]
          have hexit : iterLen (([], 0) : List (List ℕ) × ℕ) = 0 := by
            simp [iterLen, scoutfs_kvec_length]
          rw [memcpy_loop, dif_pos (by simp [iter_contig])]
          have hrest' : iter_rest (iter_adv (ss :: srest, soff)
              (ss.length - soff)) = [] := by
            have h1 := length_iter_rest (iter_adv (ss :: srest, soff)
              (ss.length - soff))
            rw [hadvlen] at h1
            refine List.length_eq_zero.mp ?_
            omega
          rw [hrest', List.append_nil] at hchunk
          rw [hchunk, hdrop, List.append_nil]
          simp only [List.nil_append, List.append_nil]
          have heq : ss.length - soff = iterLen (ss :: srest, soff) := by omega
          rw [heq]
        · -- the destination still has room: recurse with the same single
          -- segment at the advanced offset
          have hlt : doff + (ss.length - soff) < buf.length := by omega
          have hlen' : (buf.take doff ++ ss.drop soff ++
              buf.drop (doff + (ss.length - soff))).length = buf.length := by
            simp [List.length_drop]
            omega
          have hcollect : iter_norm_collect
              [buf.take doff ++ ss.drop soff ++ buf.drop (doff + (ss.length - soff))]
              (doff + (ss.length - soff)) [] =
              ([], ([buf.take doff ++ ss.drop soff ++
                buf.drop (doff + (ss.length - soff))],
                doff + (ss.length - soff))) := by
            rw [iter_norm_collect, if_neg (by omega)]
          rw [hcollect]
          rw [ih (iter_adv (ss :: srest, soff) (ss.length - soff)) _ _ _ _
            (by rw [iter_adv]; exact iter_norm_normal _ _)
            (by omega) (by rw [hadvlen, hlen']; omega)]
          have hA : (buf.take doff).length = doff := by
            rw [List.length_take]
            omega
          have hB : (ss.drop soff).length = ss.length - soff :=
            List.length_drop _ _
          have htake2 : (buf.take doff ++ ss.drop soff ++
              buf.drop (doff + (ss.length - soff))).take
                (doff + (ss.length - soff)) =
              buf.take doff ++ ss.drop soff := by
            rw [List.append_assoc, List.take_append_eq_append_take,
              List.take_of_length_le
                (by omega : (buf.take doff).length ≤ doff + (ss.length - soff)),
              hA]
            have h4 : doff + (ss.length - soff) - doff = ss.length - soff := by
              omega
            rw [h4, List.take_append_eq_append_take,
              List.take_of_length_le
                (by omega : (ss.drop soff).length ≤ ss.length - soff), hB]
            have h5 : ss.length - soff - (ss.length - soff) = 0 := by omega
            rw [h5, List.take_zero, List.append_nil]
          rw [htake2, hchunk]
          simp only [List.append_nil, List.append_assoc]
          rw [hadvlen]
          have heq : copied + (ss.length - soff) +
              (iterLen (ss :: srest, soff) - (ss.length - soff)) =
              copied + iterLen (ss :: srest, soff) := by omega
          rw [heq]

/-- The memcpy of `scoutfs_kvec_dup_flatten`: into a single fresh
segment of exactly the source's total length, the whole source is
copied and the destination's one segment becomes the concatenation of
the source's bytes. -/
theorem scoutfs_kvec_memcpy_single (src : Kvec) (buf : List ℕ)
    (hbuf : buf.length = scoutfs_kvec_length src) :
    scoutfs_kvec_memcpy [buf] src = ([src.flatten], scoutfs_kvec_length src) := by
  rw [scoutfs_kvec_memcpy]
  by_cases hb : buf.length = 0
  · have hbuf0 : buf = [] := List.length_eq_zero.mp hb
    subst hbuf0
    have h0 : scoutfs_kvec_length src = 0 := by
      simpa using hbuf.symm
    have hflat : src.flatten = [] := by
      refine List.length_eq_zero.mp ?_
      rw [List.length_flatten]
      exact h0
    have hcollect : iter_norm_collect [([] : List ℕ)] 0 [] =
        ([([] : List ℕ)], ([], 0)) := by
      rw [iter_norm_collect, if_pos (by simp), iter_norm_collect]
      simp
    rw [hcollect, memcpy_loop, dif_pos (by simp [iter_contig]), hflat, h0]
    simp
  · have hcollect : iter_norm_collect [buf] 0 [] = ([], ([buf], 0)) := by
      rw [iter_norm_collect, if_neg (by omega)]
    rw [hcollect]
    have hinit_len : iterLen (iter_init src) = scoutfs_kvec_length src := by
      rw [iter_init, iterLen_iter_norm]
      omega
    rw [memcpy_loop_single (iterLen (iter_init src)) (iter_init src) buf 0 [] 0
      (iter_norm_normal _ _) le_rfl (by omega)]
    rw [iter_init, iter_norm_rest, List.drop_zero, List.take_zero]
    simp [iterLen_iter_norm]

/-- C7: on every successful DuplicateFlatten, the destination is a
single-segment vector over one new contiguous buffer holding exactly
the source's bytes; it compares equal to the source, has the source's
length, and the return value is 0. -/
theorem C7_dup_flatten_roundtrip (dst src : Kvec) (buf : List ℕ)
    (hbuf : buf.length = scoutfs_kvec_length src) :
    (scoutfs_kvec_dup_flatten (some buf) dst src).2 = 0 ∧
    (scoutfs_kvec_dup_flatten (some buf) dst src).1 = [src.flatten] ∧
    scoutfs_kvec_memcmp (scoutfs_kvec_dup_flatten (some buf) dst src).1 src = 0 ∧
    scoutfs_kvec_length (scoutfs_kvec_dup_flatten (some buf) dst src).1 =
      scoutfs_kvec_length src := by
  have hdst : (scoutfs_kvec_dup_flatten (some buf) dst src).1 = [src.flatten] := by
    rw [scoutfs_kvec_dup_flatten]
    simp only [scoutfs_kvec_init]
    rw [scoutfs_kvec_memcpy_single src buf hbuf]
  refine ⟨rfl, hdst, ?_, ?_⟩
  · rw [hdst, scoutfs_kvec_memcmp_eq_listCmp]
    have hfl : (([src.flatten] : Kvec)).flatten = src.flatten := by simp
    rw [hfl, listCmp_refl]
  · rw [hdst]
    simp [scoutfs_kvec_length, List.length_flatten]

/-- Witness for C7: flattening the two-segment source [[1],[2,3]] into a
3-byte buffer, clobbering an existing two-segment destination. -/
theorem C7_dup_flatten_roundtrip_witness :
    (scoutfs_kvec_dup_flatten (some [9, 9, 9]) [[7], [8]] [[1], [2, 3]]).2 = 0 ∧
    (scoutfs_kvec_dup_flatten (some [9, 9, 9]) [[7], [8]] [[1], [2, 3]]).1 =
      [List.flatten [[1], [2, 3]]] ∧
    scoutfs_kvec_memcmp (scoutfs_kvec_dup_flatten (some [9, 9, 9]) [[7], [8]]
      [[1], [2, 3]]).1 [[1], [2, 3]] = 0 ∧
    scoutfs_kvec_length (scoutfs_kvec_dup_flatten (some [9, 9, 9]) [[7], [8]]
      [[1], [2, 3]]).1 = scoutfs_kvec_length [[1], [2, 3]] :=
  C7_dup_flatten_roundtrip [[7], [8]] [[1], [2, 3]] [9, 9, 9] (by decide)

/-- C8 counterexample: the claim asserts Release zeroes every segment
length and makes the vector's Length 0, but `scoutfs_kvec_kfree` only
nulls the pointers: on the one-segment vector with length 3, Length is
still 3 after Release. -/
theorem C8_release_counterexample :
    ¬ (kvec_length_desc (scoutfs_kvec_kfree [⟨some 1, 3⟩]) = 0 ∧
       ∀ seg ∈ scoutfs_kvec_kfree [⟨some 1, 3⟩], seg.iov_len = 0) := by
  intro h
  have := h.1
  simp [scoutfs_kvec_kfree, kvec_length_desc] at this

/-- C8 (amended): Release frees and nulls every segment's pointer but
writes no length field: each segment's length, and hence the vector's
Length, is unchanged. -/
theorem C8_release_nulls_pointers_keeps_lengths (kv : List KvecSeg) :
    (∀ seg ∈ scoutfs_kvec_kfree kv, seg.iov_base = none) ∧
    (scoutfs_kvec_kfree kv).map KvecSeg.iov_len = kv.map KvecSeg.iov_len ∧
    kvec_length_desc (scoutfs_kvec_kfree kv) = kvec_length_desc kv := by
  refine ⟨?_, ?_, ?_⟩
  · intro seg hseg
    rw [scoutfs_kvec_kfree] at hseg
    obtain ⟨s, _, hs⟩ := List.mem_map.mp hseg
    rw [← hs]
  · rw [scoutfs_kvec_kfree, List.map_map]
    rfl
  · rw [kvec_length_desc, kvec_length_desc, scoutfs_kvec_kfree, List.map_map]
    rfl

/-- Witness for C6 at concrete vectors: roundtrip on [[1, 0], [255]] and
wraparound on all-0xFF / all-0x00 two-segment vectors. -/
theorem C6_be_inc_dec_roundtrip_witness :
    scoutfs_kvec_be_dec (scoutfs_kvec_be_inc [[1, 0], [255]]) = [[1, 0], [255]] ∧
    scoutfs_kvec_be_inc [[255], [255, 255]] =
      List.map (List.map fun _ => 0) [[255], [255, 255]] ∧
    scoutfs_kvec_be_dec [[0], [0, 0]] =
      List.map (List.map fun _ => 255) [[0], [0, 0]] :=
  ⟨C6_be_inc_dec_roundtrip.1 [[1, 0], [255]] (by unfold KvecWF; decide),
   C6_be_inc_dec_roundtrip.2.2.2.1 [[255], [255, 255]] (by decide),
   C6_be_inc_dec_roundtrip.2.2.2.2 [[0], [0, 0]] (by decide)⟩

/-! ### Lemmas about the `read_supers` scan -/

theorem read_supers_loop_keep (superId : ℕ)
    (slots : List (Option scoutfs_super_block)) :
    ∀ (i f : ℕ) (cur : scoutfs_super_block),
      (∀ (j : ℕ) (t : scoutfs_super_block), slots[j]? = some (some t) → t.id = superId →
        t.hdr.seq ≤ cur.hdr.seq) →
      read_supers_loop superId slots i (some f) cur = (some f, cur) := by
  induction slots with
  | nil =>
    intro i f cur h
    rfl
  | cons slot rest ih =>
    intro i f cur h
    cases slot with
    | none =>
      rw [read_supers_loop]
      exact ih (i + 1) f cur (fun j t hj ht => h (j + 1) t (by simpa using hj) ht)
    | some s =>
      by_cases hid : s.id = superId
      · have hle : s.hdr.seq ≤ cur.hdr.seq := h 0 s (by simp) hid
        rw [read_supers_loop, if_neg (not_not_intro hid), if_neg ?hne]
        case hne =>
          rintro (hn | hgt)
          · exact Option.noConfusion hn
          · omega
        exact ih (i + 1) f cur (fun j t hj ht => h (j + 1) t (by simpa using hj) ht)
      · rw [read_supers_loop, if_pos hid]
        exact ih (i + 1) f cur (fun j t hj ht => h (j + 1) t (by simpa using hj) ht)

theorem read_supers_loop_no_valid (superId : ℕ)
    (slots : List (Option scoutfs_super_block)) :
    ∀ (i : ℕ) (cur : scoutfs_super_block),
      (∀ (j : ℕ) (t : scoutfs_super_block), slots[j]? = some (some t) → t.id ≠ superId) →
      read_supers_loop superId slots i none cur = (none, cur) := by
  induction slots with
  | nil =>
    intro i cur h
    rfl
  | cons slot rest ih =>
    intro i cur h
    cases slot with
    | none =>
      rw [read_supers_loop]
      exact ih (i + 1) cur (fun j t hj => h (j + 1) t (by simpa using hj))
    | some s =>
      rw [read_supers_loop, if_pos (h 0 s (by simp))]
      exact ih (i + 1) cur (fun j t hj => h (j + 1) t (by simpa using hj))

theorem read_supers_loop_select (superId : ℕ)
    (slots : List (Option scoutfs_super_block)) :
    ∀ (i : ℕ) (found : Option ℕ) (cur : scoutfs_super_block) (k : ℕ)
      (s : scoutfs_super_block),
      slots[k]? = some (some s) → s.id = superId →
      (found = none ∨ cur.hdr.seq < s.hdr.seq) →
      (∀ (j : ℕ) (t : scoutfs_super_block), slots[j]? = some (some t) → t.id = superId →
        t.hdr.seq ≤ s.hdr.seq ∧ (t.hdr.seq = s.hdr.seq → k ≤ j)) →
      read_supers_loop superId slots i found cur = (some (i + k), s) := by
  induction slots with
  | nil =>
    intro i found cur k s hk
    simp at hk
  | cons slot rest ih =>
    intro i found cur k s hk hid hlt hmax
    cases k with
    | zero =>
      have hslot : slot = some s := by simpa using hk
      subst hslot
      rw [read_supers_loop, if_neg (not_not_intro hid), if_pos ?hcond]
      case hcond =>
        rcases hlt with hn | hgt
        · exact Or.inl hn
        · exact Or.inr hgt
      rw [read_supers_loop_keep superId rest (i + 1) i s
        (fun j t hj ht => (hmax (j + 1) t (by simpa using hj) ht).1)]
      simp
    | succ m =>
      have hk' : rest[m]? = some (some s) := by simpa using hk
      have hshift : ∀ (j : ℕ) (t : scoutfs_super_block), rest[j]? = some (some t) → t.id = superId →
          t.hdr.seq ≤ s.hdr.seq ∧ (t.hdr.seq = s.hdr.seq → m ≤ j) := by
        intro j t hj ht
        have := hmax (j + 1) t (by simpa using hj) ht
        exact ⟨this.1, fun he => by have := this.2 he; omega⟩
      have harith : i + (m + 1) = (i + 1) + m := by omega
      rw [harith]
      cases slot with
      | none =>
        rw [read_supers_loop]
        exact ih (i + 1) found cur m s hk' hid hlt hshift
      | some t =>
        by_cases htid : t.id = superId
        · have ht0 := hmax 0 t (by simp) htid
          have htlt : t.hdr.seq < s.hdr.seq := by
            rcases ht0 with ⟨hle, himp⟩
            by_cases heq : t.hdr.seq = s.hdr.seq
            · have := himp heq
              omega
            · omega
          rw [read_supers_loop, if_neg (not_not_intro htid)]
          by_cases hcond : found = none ∨ t.hdr.seq > cur.hdr.seq
          · rw [if_pos hcond]
            exact ih (i + 1) (some i) t m s hk' hid (Or.inr htlt) hshift
          · rw [if_neg hcond]
            have hlt' : found = none ∨ cur.hdr.seq < s.hdr.seq := hlt
            exact ih (i + 1) found cur m s hk' hid hlt' hshift
        · rw [read_supers_loop, if_pos htid]
          exact ih (i + 1) found cur m s hk' hid hlt hshift

theorem read_supers_loop_censor (superId : ℕ)
    (slots : List (Option scoutfs_super_block)) :
    ∀ (i : ℕ) (found : Option ℕ) (cur : scoutfs_super_block),
      read_supers_loop superId (slots.map (soft_reject superId)) i found cur =
        read_supers_loop superId slots i found cur := by
  induction slots with
  | nil =>
    intro i found cur
    rfl
  | cons slot rest ih =>
    intro i found cur
    cases slot with
    | none =>
      simp only [List.map_cons, soft_reject]
      rw [read_supers_loop, read_supers_loop]
      exact ih (i + 1) found cur
    | some s =>
      by_cases hid : s.id = superId
      · simp only [List.map_cons, soft_reject, if_pos hid]
        rw [read_supers_loop, read_supers_loop, if_neg (not_not_intro hid),
          if_neg (not_not_intro hid)]
        by_cases hcond : found = none ∨ s.hdr.seq > cur.hdr.seq
        · rw [if_pos hcond, if_pos hcond]
          exact ih (i + 1) (some i) s
        · rw [if_neg hcond, if_neg hcond]
          exact ih (i + 1) found cur
      · simp only [List.map_cons, soft_reject, if_neg hid]
        rw [read_supers_loop, read_supers_loop, if_pos hid]
        exact ih (i + 1) found cur

/-- C1: Recover scans every replica slot, treating a failed read or an
identifier mismatch as a soft rejection (formally: turning every
id-mismatched slot into a read failure leaves the result unchanged);
with no valid candidate it fails with -EINVAL (CorruptFilesystem), and
with a unique strictly-highest sequence number among valid candidates it
selects exactly that replica — whatever its position in the scan — as
both the current and stable in-memory superblock. -/
theorem C1_read_supers_selects_highest (superId : ℕ)
    (slots : List (Option scoutfs_super_block)) :
    ((∀ (j : ℕ) (t : scoutfs_super_block), slots[j]? = some (some t) → t.id ≠ superId) →
      read_supers superId slots = Except.error (-22)) ∧
    (∀ (k : ℕ) (s : scoutfs_super_block), slots[k]? = some (some s) → s.id = superId →
      (∀ (j : ℕ) (t : scoutfs_super_block), slots[j]? = some (some t) → t.id = superId → j ≠ k →
        t.hdr.seq < s.hdr.seq) →
      read_supers superId slots = Except.ok (k, ⟨s, s⟩)) ∧
    read_supers superId (slots.map (soft_reject superId)) =
      read_supers superId slots := by
  refine ⟨?_, ?_, ?_⟩
  · intro h
    rw [read_supers, read_supers_loop_no_valid superId slots 0 zero_super h]
  · intro k s hk hid hstrict
    have hmax : ∀ (j : ℕ) (t : scoutfs_super_block), slots[j]? = some (some t) → t.id = superId →
        t.hdr.seq ≤ s.hdr.seq ∧ (t.hdr.seq = s.hdr.seq → k ≤ j) := by
      intro j t hj htid
      by_cases hjk : j = k
      · subst hjk
        rw [hj] at hk
        have ht : t = s := by
          injection hk with h1
          injection h1
        subst ht
        exact ⟨le_refl _, fun _ => le_refl _⟩
      · have := hstrict j t hj htid hjk
        exact ⟨le_of_lt this, fun he => absurd he (by omega)⟩
    rw [read_supers, read_supers_loop_select superId slots 0 none zero_super
      k s hk hid (Or.inl rfl) hmax]
    simp
  · rw [read_supers, read_supers, read_supers_loop_censor]

/-- Witness for C1: a ring with one unreadable slot, one wrong-id slot
and two valid replicas; slot 2 holds the strictly highest sequence
number and is selected; a ring with no valid replica errors with -22. -/
theorem C1_read_supers_selects_highest_witness :
    read_supers 7 [some ⟨⟨20, 3⟩, 7, 50, []⟩, none, some ⟨⟨21, 5⟩, 7, 50, []⟩,
        some ⟨⟨22, 9⟩, 8, 50, []⟩] =
      Except.ok (2, ⟨⟨⟨21, 5⟩, 7, 50, []⟩, ⟨⟨21, 5⟩, 7, 50, []⟩⟩) ∧
    read_supers 7 [none, some ⟨⟨22, 9⟩, 8, 50, []⟩] = Except.error (-22) := by
  constructor
  · refine (C1_read_supers_selects_highest 7 _).2.1 2 ⟨⟨21, 5⟩, 7, 50, []⟩
      rfl rfl ?_
    intro j t hj htid hjk
    rcases j with _ | _ | _ | _ | j
    · simp only [List.getElem?_cons_zero, Option.some.injEq] at hj
      subst hj
      decide
    · simp at hj
    · exact absurd rfl hjk
    · simp only [List.getElem?_cons_succ, List.getElem?_cons_zero,
        Option.some.injEq] at hj
      subst hj
      simp at htid
    · simp at hj
  · refine (C1_read_supers_selects_highest 7 _).1 ?_
    intro j t hj
    rcases j with _ | _ | j
    · simp at hj
    · simp only [List.getElem?_cons_succ, List.getElem?_cons_zero,
        Option.some.injEq] at hj
      subst hj
      decide
    · simp at hj

/-- C10: when several valid replicas share the maximal sequence number,
the scan replaces its running best only on a strictly greater sequence
number, so Recover selects the lowest-indexed slot among them. -/
theorem C10_read_supers_tie_breaks_low (superId : ℕ)
    (slots : List (Option scoutfs_super_block)) (k : ℕ)
    (s : scoutfs_super_block) (hk : slots[k]? = some (some s))
    (hid : s.id = superId)
    (hmax : ∀ (j : ℕ) (t : scoutfs_super_block), slots[j]? = some (some t) → t.id = superId →
      t.hdr.seq ≤ s.hdr.seq)
    (hties : ∀ (j : ℕ) (t : scoutfs_super_block), slots[j]? = some (some t) → t.id = superId →
      t.hdr.seq = s.hdr.seq → k ≤ j) :
    read_supers superId slots = Except.ok (k, ⟨s, s⟩) := by
  rw [read_supers, read_supers_loop_select superId slots 0 none zero_super
    k s hk hid (Or.inl rfl)
    (fun j t hj ht => ⟨hmax j t hj ht, hties j t hj ht⟩)]
  simp

/-- Witness for C10: slots 0 and 2 are both valid with the shared
maximal sequence number 5; slot 0 is selected. -/
theorem C10_read_supers_tie_breaks_low_witness :
    read_supers 7 [some ⟨⟨20, 5⟩, 7, 50, []⟩, some ⟨⟨21, 4⟩, 7, 50, []⟩,
        some ⟨⟨22, 5⟩, 7, 50, []⟩] =
      Except.ok (0, ⟨⟨⟨20, 5⟩, 7, 50, []⟩, ⟨⟨20, 5⟩, 7, 50, []⟩⟩) := by
  refine C10_read_supers_tie_breaks_low 7 _ 0 ⟨⟨20, 5⟩, 7, 50, []⟩ rfl rfl ?_ ?_
  · intro j t hj htid
    rcases j with _ | _ | _ | j
    · simp only [List.getElem?_cons_zero, Option.some.injEq] at hj
      subst hj
      decide
    · simp only [List.getElem?_cons_succ, List.getElem?_cons_zero,
        Option.some.injEq] at hj
      subst hj
      decide
    · simp only [List.getElem?_cons_succ, List.getElem?_cons_zero,
        Option.some.injEq] at hj
      subst hj
      decide
    · simp at hj
  · intro j t hj htid hseq
    exact Nat.zero_le j

/-- C2: AdvanceDirty copies the current superblock into the stable copy
first, then advances the current copy's replica-slot block number to the
next ring slot (wrapping from the last slot back to the first) and adds
exactly 1 to its sequence number, leaving every other field of the
superblock unchanged; the operation is pure in-memory state, and
afterwards the slot named by the current copy differs from the slot
named by the stable copy. -/
theorem C2_advance_dirty_super_rotates (SUPER_BLKNO SUPER_NR : ℕ)
    (sbi : scoutfs_sb_info) (hNR : 2 ≤ SUPER_NR)
    (hlo : SUPER_BLKNO ≤ sbi.super.hdr.blkno)
    (hhi : sbi.super.hdr.blkno < SUPER_BLKNO + SUPER_NR)
    (hfit : SUPER_BLKNO + SUPER_NR < 2 ^ 64)
    (hseq : sbi.super.hdr.seq + 1 < 2 ^ 64) :
    (scoutfs_advance_dirty_super SUPER_BLKNO SUPER_NR sbi).stable_super =
      sbi.super ∧
    (scoutfs_advance_dirty_super SUPER_BLKNO SUPER_NR sbi).super.hdr.seq =
      sbi.super.hdr.seq + 1 ∧
    (scoutfs_advance_dirty_super SUPER_BLKNO SUPER_NR sbi).super.hdr.blkno =
      (if sbi.super.hdr.blkno + 1 = SUPER_BLKNO + SUPER_NR then SUPER_BLKNO
       else sbi.super.hdr.blkno + 1) ∧
    SUPER_BLKNO ≤
      (scoutfs_advance_dirty_super SUPER_BLKNO SUPER_NR sbi).super.hdr.blkno ∧
    (scoutfs_advance_dirty_super SUPER_BLKNO SUPER_NR sbi).super.hdr.blkno <
      SUPER_BLKNO + SUPER_NR ∧
    (scoutfs_advance_dirty_super SUPER_BLKNO SUPER_NR sbi).super.hdr.blkno ≠
      (scoutfs_advance_dirty_super SUPER_BLKNO SUPER_NR
        sbi).stable_super.hdr.blkno ∧
    (scoutfs_advance_dirty_super SUPER_BLKNO SUPER_NR sbi).super.id =
      sbi.super.id ∧
    (scoutfs_advance_dirty_super SUPER_BLKNO SUPER_NR sbi).super.total_blocks =
      sbi.super.total_blocks ∧
    (scoutfs_advance_dirty_super SUPER_BLKNO SUPER_NR sbi).super.uuid =
      sbi.super.uuid := by
  have hb1 : (sbi.super.hdr.blkno + 1) % 2 ^ 64 = sbi.super.hdr.blkno + 1 :=
    Nat.mod_eq_of_lt (by omega)
  have hbn : (SUPER_BLKNO + SUPER_NR) % 2 ^ 64 = SUPER_BLKNO + SUPER_NR :=
    Nat.mod_eq_of_lt hfit
  have hb0 : SUPER_BLKNO % 2 ^ 64 = SUPER_BLKNO :=
    Nat.mod_eq_of_lt (by omega)
  have hs1 : (sbi.super.hdr.seq + 1) % 2 ^ 64 = sbi.super.hdr.seq + 1 :=
    Nat.mod_eq_of_lt hseq
  simp only [scoutfs_advance_dirty_super, hb1, hbn, hb0, hs1, ne_eq,
    eq_self_iff_true, true_and, and_true]
  refine ⟨?_, ?_, ?_⟩ <;>
    by_cases hwrap : sbi.super.hdr.blkno + 1 = SUPER_BLKNO + SUPER_NR <;>
    [rw [if_pos hwrap]; rw [if_neg hwrap]; rw [if_pos hwrap]; rw [if_neg hwrap];
      rw [if_pos hwrap]; rw [if_neg hwrap]] <;> omega

/-- Witness for C2 at a two-slot ring starting at block 16: from slot 17
(the last slot) the current copy wraps back to slot 16 while the stable
copy still names slot 17. -/
theorem C2_advance_dirty_super_rotates_witness :
    (scoutfs_advance_dirty_super 16 2 ⟨⟨⟨17, 5⟩, 7, 50, []⟩,
        ⟨⟨17, 5⟩, 7, 50, []⟩⟩).stable_super = ⟨⟨17, 5⟩, 7, 50, []⟩ ∧
    (scoutfs_advance_dirty_super 16 2 ⟨⟨⟨17, 5⟩, 7, 50, []⟩,
        ⟨⟨17, 5⟩, 7, 50, []⟩⟩).super.hdr.seq = 5 + 1 ∧
    (scoutfs_advance_dirty_super 16 2 ⟨⟨⟨17, 5⟩, 7, 50, []⟩,
        ⟨⟨17, 5⟩, 7, 50, []⟩⟩).super.hdr.blkno =
      (if 17 + 1 = 16 + 2 then 16 else 17 + 1) ∧
    16 ≤ (scoutfs_advance_dirty_super 16 2 ⟨⟨⟨17, 5⟩, 7, 50, []⟩,
        ⟨⟨17, 5⟩, 7, 50, []⟩⟩).super.hdr.blkno ∧
    (scoutfs_advance_dirty_super 16 2 ⟨⟨⟨17, 5⟩, 7, 50, []⟩,
        ⟨⟨17, 5⟩, 7, 50, []⟩⟩).super.hdr.blkno < 16 + 2 ∧
    (scoutfs_advance_dirty_super 16 2 ⟨⟨⟨17, 5⟩, 7, 50, []⟩,
        ⟨⟨17, 5⟩, 7, 50, []⟩⟩).super.hdr.blkno ≠
      (scoutfs_advance_dirty_super 16 2 ⟨⟨⟨17, 5⟩, 7, 50, []⟩,
        ⟨⟨17, 5⟩, 7, 50, []⟩⟩).stable_super.hdr.blkno ∧
    (scoutfs_advance_dirty_super 16 2 ⟨⟨⟨17, 5⟩, 7, 50, []⟩,
        ⟨⟨17, 5⟩, 7, 50, []⟩⟩).super.id = 7 ∧
    (scoutfs_advance_dirty_super 16 2 ⟨⟨⟨17, 5⟩, 7, 50, []⟩,
        ⟨⟨17, 5⟩, 7, 50, []⟩⟩).super.total_blocks = 50 ∧
    (scoutfs_advance_dirty_super 16 2 ⟨⟨⟨17, 5⟩, 7, 50, []⟩,
        ⟨⟨17, 5⟩, 7, 50, []⟩⟩).super.uuid = [] :=
  C2_advance_dirty_super_rotates 16 2 ⟨⟨⟨17, 5⟩, 7, 50, []⟩, ⟨⟨17, 5⟩, 7, 50, []⟩⟩
    (by norm_num) (by norm_num) (by norm_num) (by norm_num) (by norm_num)

/-- C9: on a successful free-block query, the statistics report
estimates inodes_free as blocks_free times the fixed density constant
17, inodes_total as that estimate plus the highest inode identifier ever
allocated, and derives the filesystem id by XOR-folding the 128-bit UUID
into two 32-bit halves (first two little-endian 32-bit words XORed,
second two XORed); a failed query fails the whole report with the same
error. -/
theorem C9_statfs_estimates (MAGIC BLOCK_SIZE NAME_LEN bfree last_ino : ℕ)
    (super : scoutfs_super_block) (hov : bfree * 17 + last_ino < 2 ^ 64) :
    scoutfs_statfs MAGIC BLOCK_SIZE NAME_LEN (Except.ok bfree) super last_ino =
      Except.ok
        { f_type := MAGIC
          f_bsize := BLOCK_SIZE
          f_blocks := super.total_blocks
          f_bfree := bfree
          f_bavail := bfree
          f_ffree := bfree * 17
          f_files := bfree * 17 + last_ino
          f_fsid_val0 := Nat.xor (le32_word super.uuid 0) (le32_word super.uuid 1)
          f_fsid_val1 := Nat.xor (le32_word super.uuid 2) (le32_word super.uuid 3)
          f_namelen := NAME_LEN
          f_frsize := BLOCK_SIZE } ∧
    (∀ e : Int, scoutfs_statfs MAGIC BLOCK_SIZE NAME_LEN (Except.error e) super
        last_ino = Except.error e) := by
  have h17 : bfree * 17 % 2 ^ 64 = bfree * 17 := Nat.mod_eq_of_lt (by omega)
  have hfl : (bfree * 17 % 2 ^ 64 + last_ino) % 2 ^ 64 = bfree * 17 + last_ino := by
    rw [h17]
    exact Nat.mod_eq_of_lt hov
  have hfl2 : (bfree * 17 + last_ino) % 2 ^ 64 = bfree * 17 + last_ino :=
    Nat.mod_eq_of_lt hov
  constructor
  · simp only [scoutfs_statfs, h17, hfl, hfl2]
  · intro e
    rfl

/-- Witness for C9 with a concrete UUID and 10 free blocks: 170 free
inodes are estimated. -/
theorem C9_statfs_estimates_witness :
    scoutfs_statfs 42 4096 255 (Except.ok 10)
        ⟨⟨0, 0⟩, 7, 100, [1, 2, 3, 4, 5, 6, 7, 8, 9, 10, 11, 12, 13, 14, 15, 16]⟩
        3 =
      Except.ok
        { f_type := 42
          f_bsize := 4096
          f_blocks := 100
          f_bfree := 10
          f_bavail := 10
          f_ffree := 10 * 17
          f_files := 10 * 17 + 3
          f_fsid_val0 := Nat.xor
            (le32_word [1, 2, 3, 4, 5, 6, 7, 8, 9, 10, 11, 12, 13, 14, 15, 16] 0)
            (le32_word [1, 2, 3, 4, 5, 6, 7, 8, 9, 10, 11, 12, 13, 14, 15, 16] 1)
          f_fsid_val1 := Nat.xor
            (le32_word [1, 2, 3, 4, 5, 6, 7, 8, 9, 10, 11, 12, 13, 14, 15, 16] 2)
            (le32_word [1, 2, 3, 4, 5, 6, 7, 8, 9, 10, 11, 12, 13, 14, 15, 16] 3)
          f_namelen := 255
          f_frsize := 4096 } ∧
    (∀ e : Int, scoutfs_statfs 42 4096 255 (Except.error e)
        ⟨⟨0, 0⟩, 7, 100, [1, 2, 3, 4, 5, 6, 7, 8, 9, 10, 11, 12, 13, 14, 15, 16]⟩
        3 = Except.error e) :=
  C9_statfs_estimates 42 4096 255 10 3
    ⟨⟨0, 0⟩, 7, 100, [1, 2, 3, 4, 5, 6, 7, 8, 9, 10, 11, 12, 13, 14, 15, 16]⟩
    (by norm_num)

end Scoutfs
